import Mathlib

/-!
Leiden community detection script: formal model.

A shallow embedding of `priv/scripts/leidenalg_detect.py`: the JSON edge
conversion and output plumbing are translated directly from the Python
source; the Leiden algorithm core (provided there by the external
`leidenalg` library, whose code is not part of this repository) is
modelled from the design document's description of graph store, quality
objective, local moving, refinement, aggregation and driver loop.

Real-number weights and quality values are embedded as `Frac`, an
executable rational type (reduced fraction of an `Int` numerator and a
positive `Nat` denominator) whose operations the kernel can evaluate.
-/

set_option maxRecDepth 10000

/-- An executable rational: numerator and denominator. All constructors
used by the model go through `Frac.norm`, so values are reduced with a
positive denominator and structural equality is numeric equality. -/
structure Frac where
  num : Int
  den : Nat
deriving DecidableEq, Repr

/-- Reduce a fraction: divide out the gcd (a zero denominator, which no
model operation produces, is mapped to 0). -/
def Frac.norm (n : Int) (d : Nat) : Frac :=
  if d = 0 then ⟨0, 1⟩
  else
    let g := Int.gcd n d
    if g = 0 then ⟨0, 1⟩ else ⟨n / g, d / g⟩

instance (n : Nat) : OfNat Frac n := ⟨⟨n, 1⟩⟩

instance : Neg Frac := ⟨fun a => ⟨-a.num, a.den⟩⟩

instance : Add Frac :=
  ⟨fun a b => Frac.norm (a.num * b.den + b.num * a.den) (a.den * b.den)⟩

instance : Sub Frac :=
  ⟨fun a b => Frac.norm (a.num * b.den - b.num * a.den) (a.den * b.den)⟩

instance : Mul Frac := ⟨fun a b => Frac.norm (a.num * b.num) (a.den * b.den)⟩

/-- Reciprocal; 0 maps to 0 (the convention ℚ uses for division by 0). -/
def Frac.inv (a : Frac) : Frac :=
  if a.num < 0 then ⟨-(a.den : Int), a.num.natAbs⟩
  else if a.num = 0 then ⟨0, 1⟩
  else ⟨(a.den : Int), a.num.natAbs⟩

instance : Div Frac := ⟨fun a b => a * b.inv⟩

/-- Order on fractions by cross multiplication (denominators are
positive for every value the model builds). -/
def Frac.lt (a b : Frac) : Prop := a.num * b.den < b.num * a.den

instance : LT Frac := ⟨Frac.lt⟩

instance (a b : Frac) : Decidable (a < b) :=
  inferInstanceAs (Decidable (a.num * b.den < b.num * a.den))

instance {e a : Type} [DecidableEq e] [DecidableEq a] : DecidableEq (Except e a) :=
  fun x y =>
    match x, y with
    | Except.ok u, Except.ok v =>
      if h : u = v then isTrue (by rw [h]) else isFalse (by intro hc; cases hc; exact h rfl)
    | Except.error u, Except.error v =>
      if h : u = v then isTrue (by rw [h]) else isFalse (by intro hc; cases hc; exact h rfl)
    | Except.ok _, Except.error _ => isFalse (by intro hc; cases hc)
    | Except.error _, Except.ok _ => isFalse (by intro hc; cases hc)

/-- Sum of a list of fractions. -/
def fracSum (l : List Frac) : Frac := l.foldr (fun a b => a + b) 0

/-- A JSON scalar value, as they appear as edge entries in the script's
input envelope (vertex identifiers and weights). -/
inductive JVal where
  | null : JVal
  | bool (b : Bool) : JVal
  | num (q : Frac) : JVal
  | str (s : String) : JVal
deriving DecidableEq, Repr

/-- Python truthiness of a JSON scalar (`None`, `False`, `0`, `""` are
falsy), used by the script's `weight or 1.0` defaulting expression. -/
def truthy : JVal → Bool
  | JVal.null => false
  | JVal.bool b => b
  | JVal.num q => q.num != 0
  | JVal.str s => s != ""

/-- Python's `x or y`: `y` when `x` is falsy, else `x`. -/
def pyOr (x y : JVal) : JVal := if truthy x then x else y

/-- Numeric value of a decimal digit character. -/
def digitVal (c : Char) : Nat := c.toNat - 48

/-- Digits read as a natural number (most significant first). -/
def digitsToNat (cs : List Char) : Nat :=
  cs.foldl (fun acc c => 10 * acc + digitVal c) 0

/-- A Python float value as `float()` can produce it: a finite rational,
one of the two infinities, or nan. -/
inductive PyNum where
  | fin (q : Frac) : PyNum
  | inf : PyNum
  | ninf : PyNum
  | nan : PyNum
deriving DecidableEq, Repr

/-- A weight the modelled Leiden core accepts: finite and non-negative
(spec sections 4.6 and 7 make negative or non-finite weights fatal). -/
def weightOk : PyNum → Bool
  | PyNum.fin q => !(decide (q < (0 : Frac)))
  | _ => false

/-- The finite value of a Python float, defaulting non-finite values to
0; the model reads graph weights through this only on paths where the
core validation has already ensured every weight is finite. -/
def PyNum.toFracD : PyNum → Frac
  | PyNum.fin q => q
  | _ => 0

/-- Strip leading and trailing whitespace, as `float()` does to its
string argument. -/
def stripWs (cs : List Char) : List Char :=
  ((cs.dropWhile Char.isWhitespace).reverse.dropWhile Char.isWhitespace).reverse

/-- Split a character list at the first occurrence of `c`; `none` when
`c` does not occur. -/
def splitOnce (c : Char) (cs : List Char) : List Char × Option (List Char) :=
  match cs.span (fun x => x != c) with
  | (pre, []) => (pre, none)
  | (pre, _ :: post) => (pre, some post)

/-- A digit group as Python number syntax accepts it: non-empty, digits
with optional single underscores strictly between digits. -/
def validGroup (cs : List Char) : Bool :=
  (cs.all (fun c => c.isDigit || c == '_'))
    && ((cs.head?.map Char.isDigit).getD false)
    && ((cs.getLast?.map Char.isDigit).getD false)
    && ((cs.zip cs.tail).all (fun p => !(p.1 == '_' && p.2 == '_')))

/-- The digits of a group, underscores removed. -/
def digitsOnly (cs : List Char) : List Char := cs.filter Char.isDigit

/-- Parse a string the way Python's `float()` does: optional surrounding
whitespace, optional sign, then either `inf`/`infinity`/`nan`
(case-insensitive) or a decimal literal `digits[.digits][e[sign]digits]`
with underscores permitted between digits. Unicode digit forms are
outside this model. -/
def parseDecimal (s : String) : Option PyNum :=
  let cs := (stripWs s.toList).map Char.toLower
  let sgnRest : Int × List Char :=
    match cs with
    | '-' :: r => (-1, r)
    | '+' :: r => (1, r)
    | r => (1, r)
  let sgn := sgnRest.1
  let rest := sgnRest.2
  if rest = ['i', 'n', 'f'] ∨ rest = ['i', 'n', 'f', 'i', 'n', 'i', 't', 'y'] then
    some (if sgn < 0 then PyNum.ninf else PyNum.inf)
  else if rest = ['n', 'a', 'n'] then
    some PyNum.nan
  else
    let mantExp := splitOnce 'e' rest
    let intFrac := splitOnce '.' mantExp.1
    let intG := intFrac.1
    let fracG := intFrac.2.getD []
    let expVal : Option Int :=
      match mantExp.2 with
      | none => some 0
      | some ecs =>
        let se : Int × List Char :=
          match ecs with
          | '-' :: r => (-1, r)
          | '+' :: r => (1, r)
          | r => (1, r)
        if validGroup se.2 then some (se.1 * (digitsToNat (digitsOnly se.2) : Int))
        else none
    if ¬ ((intG = [] ∨ validGroup intG = true)
        ∧ (fracG = [] ∨ validGroup fracG = true)
        ∧ ¬ (intG = [] ∧ fracG = [])) then none
    else
      match expVal with
      | none => none
      | some e =>
        let fd := digitsOnly fracG
        let fl := fd.length
        let mant : Int := (digitsToNat (digitsOnly intG) : Int) * (10 ^ fl : Nat)
          + (digitsToNat fd : Int)
        if 0 ≤ e then
          some (PyNum.fin (Frac.norm (sgn * mant * ((10 : Int) ^ e.toNat)) (10 ^ fl)))
        else
          some (PyNum.fin (Frac.norm (sgn * mant) (10 ^ (fl + (-e).toNat))))

/-- Python's `float(x)` on a JSON scalar: numbers pass through, booleans
become 0/1, strings are parsed by the `float()` grammar, everything else
raises (`ValueError`/`TypeError`), modelled as `Except.error`. -/
def pyFloat : JVal → Except String PyNum
  | JVal.num q => Except.ok (PyNum.fin q)
  | JVal.bool b => Except.ok (PyNum.fin (if b then 1 else 0))
  | JVal.str s =>
    match parseDecimal s with
    | some v => Except.ok v
    | none => Except.error ("ValueError: could not convert string to float: " ++ s)
  | JVal.null => Except.error "TypeError: float() argument cannot be None"

/-- One step of the edge-conversion loop in `main` (lines 103-110 of the
script): a 2-element edge gets implicit weight 1.0; otherwise the edge is
unpacked as a triple (raising `ValueError` for any other length) and its
weight is `float(weight or 1.0)`. The raised exceptions are *not* inside
the script's `try` block. -/
def convertEdge (e : List JVal) : Except String (JVal × JVal × PyNum) :=
  if e.length = 2 then
    match e with
    | [s, t] => Except.ok (s, t, PyNum.fin 1)
    | _ => Except.error "unreachable"
  else
    match e with
    | [s, t, w] =>
      match pyFloat (pyOr w (JVal.num 1)) with
      | Except.ok q => Except.ok (s, t, q)
      | Except.error m => Except.error m
    | _ => Except.error "ValueError: edge does not unpack into (source, target, weight)"

/-- The whole edge-conversion loop of `main`: convert each raw edge in
order, propagating the first raised exception. -/
def convert_edges : List (List JVal) → Except String (List (JVal × JVal × PyNum))
  | [] => Except.ok []
  | e :: es =>
    match convertEdge e with
    | Except.error m => Except.error m
    | Except.ok t =>
      match convert_edges es with
      | Except.error m => Except.error m
      | Except.ok ts => Except.ok (t :: ts)

/-- Append `x` to the accumulator unless already present: one step of a
Python dict's insertion-ordered key set. -/
def insertNew (acc : List JVal) (x : JVal) : List JVal :=
  if x ∈ acc then acc else acc ++ [x]

/-- First occurrences of a list's elements, in first-seen order (the key
order of a Python dict built by repeated insertion). -/
def dedupKeepFirst (l : List JVal) : List JVal := l.foldl insertNew []

/-- The endpoint stream of a converted edge list: each edge contributes
its source then its target, in edge order. -/
def endpointStream (edges : List (JVal × JVal × PyNum)) : List JVal :=
  edges.flatMap (fun e => [e.1, e.2.1])

/-- The `vertex_ids` mapping of `detect_communities` (lines 46-53),
represented by its key list in insertion order: the dense index of an
identifier is its position in this list. -/
def vertex_ids (edges : List (JVal × JVal × PyNum)) : List JVal :=
  edges.foldl (fun acc e => insertNew (insertNew acc e.1) e.2.1) []

/-- The `id_to_vertex` reverse mapping of `detect_communities` (line 56):
dense index back to the original identifier. -/
def id_to_vertex (edges : List (JVal × JVal × PyNum)) (i : Nat) : JVal :=
  (vertex_ids edges).getD i JVal.null

/-! ## The Leiden core, modelled from the spec

The script delegates the algorithm itself to `la.find_partition` of the
external `leidenalg` library; that code is not in this repository. The
definitions below model it from the design document: §4.1 graph store,
§4.2 resolution-parameterized quality and gain, §4.3 local moving,
§4.4 randomized refinement, §4.5 aggregation, §4.6 driver loop. -/

/-- Modelled from the spec: §4.1 graph store. Vertices are dense indices
`0..n-1`; edges are unordered index pairs with rational weight
(self-loops permitted, parallel edges summed where queried). -/
structure Graph where
  n : Nat
  edges : List (Nat × Nat × Frac)
deriving DecidableEq, Repr

/-- Modelled from the spec: §4.1 — total weight of the graph, self-loops
counted once and other edges counted twice (the `2m` of the objective's
null model). -/
def totalWeight (g : Graph) : Frac :=
  fracSum (g.edges.map (fun e => if e.1 = e.2.1 then e.2.2 else 2 * e.2.2))

/-- Modelled from the spec: §4.1 — weighted degree of a vertex: sum of
incident edge weights, a self-loop contributing its weight once. -/
def degree (g : Graph) (v : Nat) : Frac :=
  fracSum (g.edges.map (fun e =>
    if e.1 = v ∧ e.2.1 = v then e.2.2
    else if e.1 = v ∨ e.2.1 = v then e.2.2 else 0))

/-- Labels occurring in a membership list, in first-seen order. -/
def natKeys (l : List Nat) : List Nat :=
  l.foldl (fun acc x => if x ∈ acc then acc else acc ++ [x]) []

/-- Community label of vertex `v` under membership list `mem`. -/
def labelOf (mem : List Nat) (v : Nat) : Nat := mem.getD v 0

/-- Modelled from the spec: §4.2 — the internal-edge term of one
community: non-loop internal edges counted twice, self-loops once
(matching the degree and total-weight conventions). -/
def commInternal (g : Graph) (mem : List Nat) (c : Nat) : Frac :=
  fracSum (g.edges.map (fun e =>
    if labelOf mem e.1 = c ∧ labelOf mem e.2.1 = c then
      (if e.1 = e.2.1 then e.2.2 else 2 * e.2.2)
    else 0))

/-- Modelled from the spec: §4.2 — aggregate total degree of one
community. -/
def commDegree (g : Graph) (mem : List Nat) (c : Nat) : Frac :=
  fracSum ((List.range g.n).map (fun v => if labelOf mem v = c then degree g v else 0))

/-- Modelled from the spec: §4.2 — the resolution-parameterized quality
`Q = Σ_c (e_c − γ·a_c²/T)` with `e_c` the internal term, `a_c` the
community's total degree and `T` the graph's total weight. -/
def quality (g : Graph) (γ : Frac) (mem : List Nat) : Frac :=
  fracSum ((natKeys (mem.take g.n)).map (fun c =>
    commInternal g mem c - γ * (commDegree g mem c * commDegree g mem c) / totalWeight g))

/-- Modelled from the spec: §4.2 — the gain of moving vertex `v` to
community `c`: the change in quality this move causes. -/
def moveGain (g : Graph) (γ : Frac) (mem : List Nat) (v c : Nat) : Frac :=
  quality g γ (mem.set v c) - quality g γ mem

/-- Neighbor vertices of `v` (excluding `v` itself, so self-loops do not
contribute to move decisions), in edge order with duplicates removed. -/
def neighborsOf (g : Graph) (v : Nat) : List Nat :=
  natKeys (g.edges.flatMap (fun e =>
    if e.1 = v ∧ e.2.1 ≠ v then [e.2.1]
    else if e.2.1 = v ∧ e.1 ≠ v then [e.1] else []))

/-- Modelled from the spec: §4.2/§4.3 — best candidate community for `v`
among its neighbors' communities and its own (which has gain 0), ties
broken toward the lowest community label. Returns the chosen label and
its gain. -/
def bestCandidate (g : Graph) (γ : Frac) (mem : List Nat) (v : Nat) : Nat × Frac :=
  let cands := natKeys ((neighborsOf g v).map (labelOf mem))
  cands.foldl (fun best c =>
    let gain := moveGain g γ mem v c
    if best.2 < gain ∨ (gain = best.2 ∧ c < best.1) then (c, gain) else best)
    (labelOf mem v, 0)

/-- Modelled from the spec: §4.3 — the local-moving work loop. Vertices
are `queued` or `settled`; popping a vertex with a strictly positive
best gain moves it, settles it and re-queues its settled neighbors;
otherwise it settles. `fuel` bounds the number of pops (the spec's
termination argument is the bounded, strictly increasing quality). -/
def localMoveLoop (g : Graph) (γ : Frac) :
    Nat → List Nat → List Nat → List Bool → List Nat
  | 0, mem, _, _ => mem
  | _ + 1, mem, [], _ => mem
  | fuel + 1, mem, v :: queue, settled =>
    let bc := bestCandidate g γ mem v
    if (0 : Frac) < bc.2 then
      let mem' := mem.set v bc.1
      let settled' := settled.set v true
      let toQueue := (neighborsOf g v).filter
        (fun u => settled'.getD u false && !(queue.contains u))
      let settled2 := toQueue.foldl (fun s u => s.set u false) settled'
      localMoveLoop g γ fuel mem' (queue ++ toQueue) settled2
    else
      localMoveLoop g γ fuel mem queue (settled.set v true)

/-- Fuel budget used when running a local-moving style loop. -/
def loopFuel (g : Graph) : Nat :=
  (g.n + 2) * (g.n + 2) * (g.n + g.edges.length + 2) * 4

/-- Modelled from the spec: §4.3 — the local-moving phase: all vertices
start queued in increasing index order, none settled. -/
def localMove (g : Graph) (γ : Frac) (init : List Nat) : List Nat :=
  localMoveLoop g γ (loopFuel g) init (List.range g.n) (List.replicate g.n false)

/-- Modelled from the spec: §5/§9 — a 64-bit linear congruential
pseudo-random generator, the explicit seedable random stream refinement
draws from. -/
def lcgNext (s : Nat) : Nat :=
  (6364136223846793005 * s + 1442695040888963407) % (2 ^ 64)

/-- A pseudo-random fraction in `[0, 1)` drawn from an LCG state. -/
def rngUnit (s : Nat) : Frac := Frac.norm ((s / 2 ^ 16) % 2 ^ 32 : Nat) (2 ^ 32)

/-- Modelled from the spec: §4.4 — weighted random choice among
positive-gain options, probability proportional to gain: walk the
cumulative gains until the drawn fraction of the total is passed. -/
def weightedPick (r : Frac) (total : Frac) : List (Nat × Frac) → Nat
  | [] => 0
  | [(c, _)] => c
  | (c, gain) :: rest =>
    if r * total < gain then c else weightedPick (r * total - gain) total rest

/-- Modelled from the spec: §4.4 — the positive-gain move options of
vertex `v` during refinement: candidate sub-communities restricted to
neighbors inside the same local-moving community `lm`. -/
def refineOptions (g : Graph) (γ : Frac) (lm mem : List Nat) (v : Nat) :
    List (Nat × Frac) :=
  let cands := natKeys (((neighborsOf g v).filter
    (fun u => labelOf lm u == labelOf lm v)).map (labelOf mem))
  (cands.filter (fun c => c ≠ labelOf mem v)).filterMap (fun c =>
    let gain := moveGain g γ mem v c
    if (0 : Frac) < gain then some (c, gain) else none)

/-- Modelled from the spec: §4.4 — the refinement work loop over one
local-moving community: like local moving, but the move target is drawn
stochastically among all positive-gain options, proportional to gain. -/
def refineLoop (g : Graph) (γ : Frac) (lm : List Nat) :
    Nat → List Nat → Nat → List Nat → List Bool → List Nat × Nat
  | 0, mem, rng, _, _ => (mem, rng)
  | _ + 1, mem, rng, [], _ => (mem, rng)
  | fuel + 1, mem, rng, v :: queue, settled =>
    let opts := refineOptions g γ lm mem v
    if opts = [] then
      refineLoop g γ lm fuel mem rng queue (settled.set v true)
    else
      let rng' := lcgNext rng
      let total := fracSum (opts.map (fun o => o.2))
      let c := weightedPick (rngUnit rng') total opts
      let mem' := mem.set v c
      let settled' := settled.set v true
      let toQueue := ((neighborsOf g v).filter
        (fun u => labelOf lm u == labelOf lm v)).filter
        (fun u => settled'.getD u false && !(queue.contains u))
      let settled2 := toQueue.foldl (fun s u => s.set u false) settled'
      refineLoop g γ lm fuel mem' rng' (queue ++ toQueue) settled2

/-- Modelled from the spec: §4.4 — the refinement phase: starting from
singleton sub-communities (each vertex's own index), run the constrained
stochastic loop once per local-moving community, threading the random
stream. -/
def refine (g : Graph) (γ : Frac) (lm : List Nat) (rng : Nat) : List Nat × Nat :=
  (natKeys (lm.take g.n)).foldl (fun acc c =>
    let members := (List.range g.n).filter (fun v => labelOf lm v == c)
    refineLoop g γ lm (loopFuel g) acc.1 acc.2 members
      (List.replicate g.n false))
    (List.range g.n, rng)

/-- Modelled from the spec: §4.5 — the aggregated graph: one vertex per
refined sub-community (in first-seen order over vertex indices), edge
weight between two aggregated vertices the summed crossing weight,
self-loop weight the summed internal weight under the ×2 convention.
Also returns the carried-forward starting labels (each sub-community
keeps its local-moving community label) and the map from old vertex to
aggregated vertex index. -/
def aggregate (g : Graph) (lm ref : List Nat) : Graph × List Nat × List Nat :=
  let keys := natKeys (ref.take g.n)
  let k := keys.length
  let toNew := (List.range g.n).map (fun v => keys.indexOf (labelOf ref v))
  let newLabel := fun (v : Nat) => toNew.getD v 0
  let selfLoops := (List.range k).filterMap (fun i =>
    let es := g.edges.filter (fun e => newLabel e.1 == i && newLabel e.2.1 == i)
    if es = [] then none
    else some (i, i, fracSum (es.map (fun e => if e.1 = e.2.1 then e.2.2 else 2 * e.2.2))))
  let crossing := ((List.range k).flatMap (fun i =>
    (List.range k).filterMap (fun j =>
      if i < j then
        let es := g.edges.filter (fun e =>
          (newLabel e.1 == i && newLabel e.2.1 == j) ||
          (newLabel e.1 == j && newLabel e.2.1 == i))
        if es = [] then none
        else some (i, j, fracSum (es.map (fun e => e.2.2)))
      else none)))
  let init' := keys.map (fun c =>
    labelOf lm (((List.range g.n).filter (fun v => labelOf ref v == c)).getD 0 0))
  (⟨k, selfLoops ++ crossing⟩, init', toNew)

/-- Modelled from the spec: §4.6 — the driver loop as a function: run
{local moving, refinement, aggregation} passes until aggregation no
longer shrinks the graph or the iteration budget is exhausted (a budget
that never reaches zero, such as -1, means run to convergence); report
the final pass's local-moving labels, composed back through the
aggregation maps onto the original vertices. `fuel` bounds the pass
count; each non-final pass strictly shrinks the graph, so `g.n + 1`
passes always suffice. -/
def driverLoop (γ : Frac) : Nat → Graph → List Nat → Int → Nat → List Nat
  | 0, _, init, _, _ => init
  | fuel + 1, g, init, budget, rng =>
    if budget = 0 then init
    else
      let lm := localMove g γ init
      let rr := refine g γ lm rng
      let agg := aggregate g lm rr.1
      if agg.1.n = g.n ∨ budget = 1 then (List.range g.n).map (labelOf lm)
      else
        let out := driverLoop γ fuel agg.1 agg.2.1 (budget - 1) rr.2
        (List.range g.n).map (fun v => labelOf out (labelOf agg.2.2 v))

/-- Modelled from the spec: §4.6/§7 — `la.find_partition`: validate the
weights (a negative or non-finite weight is a fatal input error of the
core, raised before its computation starts), then run the driver loop
from singleton communities. Returns the final membership list, one
community label per vertex index. -/
def find_partition (g : Graph) (weights : List PyNum) (γ : Frac) (iters : Int)
    (seed : Nat) : Except String (List Nat) :=
  if weights.any (fun w => !(weightOk w)) then
    Except.error "ValueError: weights must be non-negative and finite"
  else
    Except.ok (driverLoop γ (g.n + 1) g (List.range g.n) iters seed)

/-- A community record of the output envelope: `{level, entity_ids}`. -/
structure Community where
  level : Nat
  entity_ids : List JVal
deriving DecidableEq, Repr

/-- Grouping of vertices by community label (lines 74-80 of the script):
for each label in first-appearance order, the original identifiers of
the vertices carrying it, in index order. -/
def groupMembership (mem : List Nat) (f : Nat → JVal) : List (List JVal) :=
  (natKeys mem).map (fun c =>
    (((List.range mem.length).filter (fun i => labelOf mem i == c)).map f))

/-- The igraph graph `detect_communities` builds (lines 53-63): dense
index pairs under the `vertex_ids` mapping, zipped with the weights
(read through `PyNum.toFracD`; the stored value of a non-finite weight
is never consulted, since the core validates the weight list before
touching the graph). -/
def builtGraph (edges : List (JVal × JVal × PyNum)) : Graph :=
  let ids := vertex_ids edges
  let edge_tuples := edges.map (fun e => (ids.indexOf e.1, ids.indexOf e.2.1))
  let weights := edges.map (fun e => e.2.2)
  ⟨ids.length, List.zipWith (fun p w => (p.1, p.2, w.toFracD)) edge_tuples weights⟩

/-- The function `detect_communities` (lines 25-87 of the script): empty
input yields no communities; otherwise map identifiers to dense indices,
build the graph, run the Leiden core, and group the membership back into
community records at level 0. The `seed` argument makes the library's
ambient random state explicit. -/
def detect_communities (edges : List (JVal × JVal × PyNum)) (resolution : Frac)
    (n_iterations : Int) (seed : Nat) : Except String (List Community) :=
  if edges = [] then Except.ok []
  else
    match find_partition (builtGraph edges) (edges.map (fun e => e.2.2))
        resolution n_iterations seed with
    | Except.error m => Except.error m
    | Except.ok mem =>
      Except.ok ((groupMembership mem (id_to_vertex edges)).map
        (fun l => { level := 0, entity_ids := l }))

/-- The summary statistics block of the output envelope. -/
structure Stats where
  vertex_count : Nat
  edge_count : Nat
  community_count : Nat
deriving DecidableEq, Repr

/-- A successful run's output: community records plus statistics. -/
structure RunResult where
  communities : List Community
  stats : Stats
deriving DecidableEq, Repr

/-- The parsed input envelope: `edges`, `resolution` (default 1.0) and
`n_iterations` (default -1), as read by `main` (lines 98-100). -/
structure Input where
  edges : List (List JVal)
  resolution : Frac
  n_iterations : Int
deriving DecidableEq, Repr

/-- How one invocation of the script ends: a JSON result on stdout
(`ok`), the `{"error": msg}` envelope on stderr with exit code 1
(`errEnvelope`, printed both for undecodable JSON and for exceptions
caught around `detect_communities`), or an uncaught Python exception
(`crash`: a traceback, no envelope). -/
inductive Outcome where
  | ok (r : RunResult) : Outcome
  | errEnvelope (msg : String) : Outcome
  | crash (msg : String) : Outcome
deriving DecidableEq, Repr

/-- The distinct-endpoint count `len(set(v for e in edge_tuples for v in
e[:2]))` of the statistics block (line 122). -/
def pyLenSet (l : List JVal) : Nat := (dedupKeepFirst l).length

/-- What the script reads from stdin, as the model distinguishes it:
stdin that does not decode as JSON at all; a document that decodes to a
non-dict value, on which `input_data.get("edges", [])` (line 98, outside
the `try` block) raises an uncaught `AttributeError`; or a dict envelope
with its extracted fields. Dict envelopes whose `edges` value is not an
array of scalar arrays are outside this model. -/
inductive Stdin where
  | undecodable : Stdin
  | nonDict : Stdin
  | dict (i : Input) : Stdin
deriving DecidableEq, Repr

/-- The entry point `main` (lines 90-131 of the script; named `main_run`
here since Lean reserves `main`). Undecodable stdin is caught and
reported as the error envelope; a non-dict document crashes at
`input_data.get`; edge conversion also runs outside the `try` block, so
its exceptions crash the process; failures of `detect_communities` are
caught and reported as the error envelope. The `seed` argument makes the
Leiden core's ambient random state explicit. -/
def main_run (inp : Stdin) (seed : Nat) : Outcome :=
  match inp with
  | Stdin.undecodable => Outcome.errEnvelope "Invalid JSON input"
  | Stdin.nonDict =>
    Outcome.crash "AttributeError: no attribute get on a non-dict JSON document"
  | Stdin.dict i =>
    match convert_edges i.edges with
    | Except.error m => Outcome.crash m
    | Except.ok edge_tuples =>
      match detect_communities edge_tuples i.resolution i.n_iterations seed with
      | Except.error m => Outcome.errEnvelope m
      | Except.ok communities =>
        Outcome.ok
          { communities := communities
            stats :=
              { vertex_count := pyLenSet (endpointStream edge_tuples)
                edge_count := edge_tuples.length
                community_count := communities.length } }

/-! ## Helper lemmas about the insertion-ordered key folds -/

theorem mem_foldl_insertNew {x : JVal} :
    ∀ {l : List JVal} {acc : List JVal}, x ∈ acc ∨ x ∈ l →
      x ∈ l.foldl insertNew acc := by
  intro l
  induction l with
  | nil => intro acc h; simpa using h
  | cons a l ih =>
    intro acc h
    rw [List.foldl_cons]
    apply ih
    rcases h with h | h
    · left
      unfold insertNew
      split
      · exact h
      · exact List.mem_append_left _ h
    · rcases List.mem_cons.mp h with rfl | h
      · left
        unfold insertNew
        split
        · assumption
        · exact List.mem_append_right _ (by simp)
      · right; exact h

theorem mem_of_mem_foldl_insertNew {x : JVal} :
    ∀ {l : List JVal} {acc : List JVal},
      x ∈ l.foldl insertNew acc → x ∈ acc ∨ x ∈ l := by
  intro l
  induction l with
  | nil => intro acc h; exact Or.inl (by simpa using h)
  | cons a l ih =>
    intro acc h
    rw [List.foldl_cons] at h
    rcases ih h with h | h
    · unfold insertNew at h
      split at h
      · exact Or.inl h
      · rcases List.mem_append.mp h with h | h
        · exact Or.inl h
        · simp only [List.mem_singleton] at h
          exact Or.inr (by simp [h])
    · exact Or.inr (by simp [h])

theorem nodup_foldl_insertNew :
    ∀ {l : List JVal} {acc : List JVal}, acc.Nodup →
      (l.foldl insertNew acc).Nodup := by
  intro l
  induction l with
  | nil => intro acc h; simpa using h
  | cons a l ih =>
    intro acc h
    rw [List.foldl_cons]
    apply ih
    unfold insertNew
    split
    · exact h
    · rw [List.nodup_append]
      refine ⟨h, List.nodup_singleton a, ?_⟩
      intro y hy hya
      simp only [List.mem_singleton] at hya
      subst hya
      exact absurd hy (by assumption)

theorem mem_dedupKeepFirst {x : JVal} {l : List JVal} :
    x ∈ dedupKeepFirst l ↔ x ∈ l := by
  constructor
  · intro h
    rcases mem_of_mem_foldl_insertNew h with h | h
    · cases h
    · exact h
  · intro h
    exact mem_foldl_insertNew (Or.inr h)

theorem nodup_dedupKeepFirst (l : List JVal) : (dedupKeepFirst l).Nodup :=
  nodup_foldl_insertNew List.nodup_nil

/-- The distinct-endpoint count of the statistics block is the
cardinality of the set of endpoints. -/
theorem pyLenSet_eq_card (l : List JVal) : pyLenSet l = l.toFinset.card := by
  have h1 : (dedupKeepFirst l).toFinset = l.toFinset := by
    apply Finset.ext
    intro x
    simp [List.mem_toFinset, mem_dedupKeepFirst]
  calc pyLenSet l = (dedupKeepFirst l).toFinset.card := by
        rw [pyLenSet, List.toFinset_card_of_nodup (nodup_dedupKeepFirst l)]
  _ = l.toFinset.card := by rw [h1]

/-- The `vertex_ids` fold over edges is the first-seen dedup of the
endpoint stream. -/
theorem vertex_ids_eq_dedup (edges : List (JVal × JVal × PyNum)) :
    vertex_ids edges = dedupKeepFirst (endpointStream edges) := by
  suffices h : ∀ (es : List (JVal × JVal × PyNum)) (acc : List JVal),
      es.foldl (fun acc e => insertNew (insertNew acc e.1) e.2.1) acc
        = (endpointStream es).foldl insertNew acc by
    exact h edges []
  intro es
  induction es with
  | nil => intro acc; simp [endpointStream]
  | cons e es ih =>
    intro acc
    rw [List.foldl_cons, ih]
    simp [endpointStream, List.flatMap_cons]

theorem vertex_ids_nodup (edges : List (JVal × JVal × PyNum)) :
    (vertex_ids edges).Nodup := by
  rw [vertex_ids_eq_dedup]
  exact nodup_dedupKeepFirst _

theorem mem_vertex_ids {x : JVal} {edges : List (JVal × JVal × PyNum)} :
    x ∈ vertex_ids edges ↔ x ∈ endpointStream edges := by
  rw [vertex_ids_eq_dedup]
  exact mem_dedupKeepFirst

/-! ## Helper lemmas about key lists over `Nat` (`natKeys`) -/

theorem mem_foldl_natKeys {x : Nat} :
    ∀ {l : List Nat} {acc : List Nat}, x ∈ acc ∨ x ∈ l →
      x ∈ l.foldl (fun acc x => if x ∈ acc then acc else acc ++ [x]) acc := by
  intro l
  induction l with
  | nil => intro acc h; simpa using h
  | cons a l ih =>
    intro acc h
    rw [List.foldl_cons]
    apply ih
    rcases h with h | h
    · left
      split
      · exact h
      · exact List.mem_append_left _ h
    · rcases List.mem_cons.mp h with rfl | h
      · left
        split
        · assumption
        · exact List.mem_append_right _ (by simp)
      · right; exact h

theorem nodup_foldl_natKeys :
    ∀ {l : List Nat} {acc : List Nat}, acc.Nodup →
      (l.foldl (fun acc x => if x ∈ acc then acc else acc ++ [x]) acc).Nodup := by
  intro l
  induction l with
  | nil => intro acc h; simpa using h
  | cons a l ih =>
    intro acc h
    rw [List.foldl_cons]
    apply ih
    split
    · exact h
    · rw [List.nodup_append]
      refine ⟨h, List.nodup_singleton a, ?_⟩
      intro y hy hya
      simp only [List.mem_singleton] at hya
      subst hya
      exact absurd hy (by assumption)

theorem mem_natKeys {x : Nat} {l : List Nat} (h : x ∈ l) : x ∈ natKeys l :=
  mem_foldl_natKeys (Or.inr h)

theorem nodup_natKeys (l : List Nat) : (natKeys l).Nodup :=
  nodup_foldl_natKeys List.nodup_nil

/-- Reading every position of a list through `getD` over its index range
reproduces the list. -/
theorem map_getD_range {α : Type} (l : List α) (d : α) :
    (List.range l.length).map (fun i => l.getD i d) = l := by
  induction l with
  | nil => simp
  | cons a l ih =>
    rw [List.length_cons, List.range_succ_eq_map, List.map_cons, List.map_map]
    have h : (List.range l.length).map ((fun i => (a :: l).getD i d) ∘ Nat.succ)
        = (List.range l.length).map (fun i => l.getD i d) := by
      apply List.map_congr_left
      intro i _
      simp [List.getD_cons_succ]
    rw [h, ih]
    simp

/-! ## Counting vertices across the grouped output -/

theorem sum_map_add (l : List Nat) (f g : Nat → Nat) :
    (l.map (fun x => f x + g x)).sum = (l.map f).sum + (l.map g).sum := by
  induction l with
  | nil => simp
  | cons a l ih => simp [ih]; omega

theorem sum_if_not_mem {keys : List Nat} {k : Nat} {a : Nat} (hk : k ∉ keys) :
    (keys.map (fun c => if k = c then a else 0)).sum = 0 := by
  induction keys with
  | nil => simp
  | cons c keys ih =>
    have hne : k ≠ c := fun h => hk (by simp [h])
    have hk' : k ∉ keys := fun h => hk (by simp [h])
    simp [hne, ih hk']

theorem sum_if_mem {keys : List Nat} {k : Nat} {a : Nat}
    (hk : k ∈ keys) (hnd : keys.Nodup) :
    (keys.map (fun c => if k = c then a else 0)).sum = a := by
  induction keys with
  | nil => cases hk
  | cons c keys ih =>
    rcases List.nodup_cons.mp hnd with ⟨hc, hnd'⟩
    rcases List.mem_cons.mp hk with rfl | hk'
    · simp [sum_if_not_mem hc]
    · have hne : k ≠ c := fun h => hc (h ▸ hk')
      simp [hne, ih hk' hnd']

/-- Summing, over a duplicate-free key list covering every label, the
occurrences of `v` inside each label's group reproduces the occurrences
of `v` over the whole index list: nothing is lost or double counted by
the grouping. -/
theorem sum_group_count (f : Nat → JVal) (v : JVal) :
    ∀ (is : List Nat) (keys : List Nat) (lab : Nat → Nat),
      keys.Nodup → (∀ i ∈ is, lab i ∈ keys) →
      (keys.map (fun c =>
          ((is.filter (fun i => lab i == c)).map f).count v)).sum
        = (is.map f).count v := by
  intro is
  induction is with
  | nil =>
    intro keys lab _ _
    have h : keys.map (fun c =>
        ((([] : List Nat).filter (fun i => lab i == c)).map f).count v)
        = keys.map (fun _ => 0) := by
      apply List.map_congr_left
      intro c _
      simp
    rw [h]
    simp [List.map_const']
  | cons i is ih =>
    intro keys lab hnd hcov
    have hicov : lab i ∈ keys := hcov i (by simp)
    have hcov' : ∀ j ∈ is, lab j ∈ keys := fun j hj => hcov j (by simp [hj])
    have hpt : keys.map (fun c =>
          (((i :: is).filter (fun j => lab j == c)).map f).count v)
        = keys.map (fun c =>
          (if lab i = c then (if f i == v then 1 else 0) else 0)
            + ((is.filter (fun j => lab j == c)).map f).count v) := by
      apply List.map_congr_left
      intro c _
      by_cases hic : lab i = c
      · simp [List.filter_cons, hic, List.count_cons, Nat.add_comm]
      · have hb : (lab i == c) = false := by simp [hic]
        simp [List.filter_cons, hb, hic]
    rw [hpt, sum_map_add, ih keys lab hnd hcov', sum_if_mem hicov hnd]
    by_cases hfv : f i = v
    · simp [List.count_cons, hfv, Nat.add_comm]
    · have : (f i == v) = false := by simp [hfv]
      simp [List.count_cons, this]

/-- Every vertex identifier occurs exactly once across the groups that
`groupMembership` builds from a full-length membership list, provided
the reverse lookup is injective in the way `vertex_ids` guarantees. -/
theorem count_groupMembership_flatten (mem : List Nat) (ids : List JVal)
    (hlen : mem.length = ids.length) (hnd : ids.Nodup) (v : JVal)
    (hv : v ∈ ids) :
    ((groupMembership mem (fun i => ids.getD i JVal.null)).flatten).count v = 1 := by
  rw [groupMembership, List.count_flatten, List.map_map]
  have hcov : ∀ i ∈ List.range mem.length,
      labelOf mem i ∈ natKeys mem := by
    intro i hi
    rw [List.mem_range] at hi
    apply mem_natKeys
    rw [labelOf, List.getD_eq_getElem mem 0 hi]
    exact List.getElem_mem hi
  have h := sum_group_count (fun i => ids.getD i JVal.null) v
    (List.range mem.length) (natKeys mem) (labelOf mem) (nodup_natKeys mem) hcov
  calc ((natKeys mem).map ((List.count v) ∘ (fun c =>
          ((List.range mem.length).filter (fun i => labelOf mem i == c)).map
            (fun i => ids.getD i JVal.null)))).sum
      = ((List.range mem.length).map (fun i => ids.getD i JVal.null)).count v := h
  _ = ids.count v := by rw [hlen, map_getD_range]
  _ = 1 := List.count_eq_one_of_mem hnd hv

/-! ## Structural lemmas about the embedded pipeline -/

/-- Every branch of the driver loop returns one label per vertex of the
graph it was handed. -/
theorem driverLoop_length (γ : Frac) (fuel : Nat) (g : Graph) (init : List Nat)
    (budget : Int) (rng : Nat) (h : init.length = g.n) :
    (driverLoop γ fuel g init budget rng).length = g.n := by
  cases fuel with
  | zero => simpa [driverLoop] using h
  | succ fuel =>
    rw [driverLoop]
    by_cases hb : budget = 0
    · simpa [hb] using h
    · simp only [hb, if_false]
      by_cases hs : (aggregate g (localMove g γ init)
          (refine g γ (localMove g γ init) rng).1).1.n = g.n ∨ budget = 1
      · simp [hs]
      · simp [hs]

/-- Inversion for a successful `find_partition`: validation passed and
the result is the driver loop's output. -/
theorem find_partition_ok {g : Graph} {ws : List PyNum} {γ : Frac} {iters : Int}
    {seed : Nat} {mem : List Nat}
    (h : find_partition g ws γ iters seed = Except.ok mem) :
    ws.any (fun w => !(weightOk w)) = false
      ∧ mem = driverLoop γ (g.n + 1) g (List.range g.n) iters seed := by
  unfold find_partition at h
  by_cases hv : ws.any (fun w => !(weightOk w)) = true
  · rw [if_pos hv] at h; cases h
  · rw [if_neg hv] at h
    exact ⟨Bool.not_eq_true _ ▸ Bool.of_not_eq_true hv, (Except.ok.inj h).symm⟩

/-- A successful `find_partition` assigns a community to every vertex. -/
theorem find_partition_length {g : Graph} {ws : List PyNum} {γ : Frac}
    {iters : Int} {seed : Nat} {mem : List Nat}
    (h : find_partition g ws γ iters seed = Except.ok mem) :
    mem.length = g.n := by
  rcases find_partition_ok h with ⟨_, rfl⟩
  exact driverLoop_length γ (g.n + 1) g (List.range g.n) iters seed
    (List.length_range g.n)

/-- The number of internal vertices of the built graph is the number of
distinct identifiers. -/
theorem builtGraph_n (edges : List (JVal × JVal × PyNum)) :
    (builtGraph edges).n = (vertex_ids edges).length := rfl

/-- Inversion for a successful `detect_communities`. -/
theorem detect_communities_ok {edges : List (JVal × JVal × PyNum)} {γ : Frac}
    {iters : Int} {seed : Nat} {comms : List Community}
    (h : detect_communities edges γ iters seed = Except.ok comms) :
    (edges = [] ∧ comms = [])
      ∨ (edges ≠ [] ∧ ∃ mem,
          find_partition (builtGraph edges) (edges.map (fun e => e.2.2))
              γ iters seed = Except.ok mem
            ∧ comms = (groupMembership mem (id_to_vertex edges)).map
                (fun l => { level := 0, entity_ids := l })) := by
  by_cases hne : edges = []
  · left
    refine ⟨hne, ?_⟩
    subst hne
    simp only [detect_communities, if_pos] at h
    exact (Except.ok.inj h).symm
  · right
    refine ⟨hne, ?_⟩
    unfold detect_communities at h
    rw [if_neg hne] at h
    cases hfp : find_partition (builtGraph edges) (edges.map (fun e => e.2.2))
        γ iters seed with
    | error m => rw [hfp] at h; cases h
    | ok mem =>
      rw [hfp] at h
      exact ⟨mem, rfl, (Except.ok.inj h).symm⟩

/-- Every community record a successful detection returns carries
level 0. -/
theorem detect_communities_level {edges : List (JVal × JVal × PyNum)} {γ : Frac}
    {iters : Int} {seed : Nat} {comms : List Community}
    (h : detect_communities edges γ iters seed = Except.ok comms) :
    ∀ c ∈ comms, c.level = 0 := by
  rcases detect_communities_ok h with ⟨_, rfl⟩ | ⟨_, mem, _, rfl⟩
  · intro c hc; cases hc
  · intro c hc
    rcases List.mem_map.mp hc with ⟨l, _, rfl⟩
    rfl

/-- When the input edges contain a negative or non-finite weight, the
modelled core rejects them during computation and `detect_communities`
fails. -/
theorem detect_communities_neg {edges : List (JVal × JVal × PyNum)} {γ : Frac}
    {iters : Int} {seed : Nat} (hne : edges ≠ [])
    (hneg : (edges.map (fun e => e.2.2)).any
      (fun w => !(weightOk w)) = true) :
    detect_communities edges γ iters seed
      = Except.error "ValueError: weights must be non-negative and finite" := by
  unfold detect_communities find_partition
  rw [if_neg hne]
  simp [hneg]

/-- Conversion preserves the number of edges. -/
theorem convert_edges_length :
    ∀ {es : List (List JVal)} {ts : List (JVal × JVal × PyNum)},
      convert_edges es = Except.ok ts → ts.length = es.length := by
  intro es
  induction es with
  | nil =>
    intro ts h
    rw [convert_edges] at h
    rw [← Except.ok.inj h]
    rfl
  | cons e es ih =>
    intro ts h
    rw [convert_edges] at h
    cases hc : convertEdge e with
    | error m => rw [hc] at h; cases h
    | ok t =>
      rw [hc] at h
      cases hr : convert_edges es with
      | error m => rw [hr] at h; cases h
      | ok ts' =>
        rw [hr] at h
        rw [← Except.ok.inj h]
        simp [ih hr]

/-- Every raw edge of a successfully converted list converted
successfully, and its tuple is in the result. -/
theorem convert_edges_mem :
    ∀ {es : List (List JVal)} {ts : List (JVal × JVal × PyNum)} {e : List JVal},
      convert_edges es = Except.ok ts → e ∈ es →
        ∃ t ∈ ts, convertEdge e = Except.ok t := by
  intro es
  induction es with
  | nil => intro ts e _ he; cases he
  | cons e0 es ih =>
    intro ts e h he
    rw [convert_edges] at h
    cases hc : convertEdge e0 with
    | error m => rw [hc] at h; cases h
    | ok t =>
      rw [hc] at h
      cases hr : convert_edges es with
      | error m => rw [hr] at h; cases h
      | ok ts' =>
        rw [hr] at h
        rw [← Except.ok.inj h]
        rcases List.mem_cons.mp he with rfl | he'
        · exact ⟨t, by simp, hc⟩
        · rcases ih hr he' with ⟨t2, ht2, h2⟩
          exact ⟨t2, by simp [ht2], h2⟩

/-- A failing conversion pinpoints a raw edge whose own conversion
raises. -/
theorem convert_edges_error :
    ∀ {es : List (List JVal)} {m : String},
      convert_edges es = Except.error m →
        ∃ e ∈ es, ∃ m2, convertEdge e = Except.error m2 := by
  intro es
  induction es with
  | nil => intro m h; cases h
  | cons e0 es ih =>
    intro m h
    rw [convert_edges] at h
    cases hc : convertEdge e0 with
    | error m2 => exact ⟨e0, by simp, m2, hc⟩
    | ok t =>
      rw [hc] at h
      cases hr : convert_edges es with
      | error m2 =>
        rcases ih hr with ⟨e, he, hm⟩
        exact ⟨e, by simp [he], hm⟩
      | ok ts' => rw [hr] at h; cases h

/-! ## The driver loop as a run relation

For the determinism property the driver loop is also rendered as an
inductive run relation mirroring §4.6: one constructor per way a pass
can end. Its determinism, together with the functional conversion and
grouping stages, gives the two-run property of the whole program. -/

/-- State of the driver between passes: current graph, carried starting
labels, remaining iteration budget, random stream state. -/
structure DriverState where
  g : Graph
  init : List Nat
  budget : Int
  rng : Nat

/-- The local-moving result of the pass starting at `s`. -/
def passLm (γ : Frac) (s : DriverState) : List Nat := localMove s.g γ s.init

/-- The refinement result (and advanced random stream) of the pass. -/
def passRefine (γ : Frac) (s : DriverState) : List Nat × Nat :=
  refine s.g γ (passLm γ s) s.rng

/-- The aggregation result of the pass. -/
def passAgg (γ : Frac) (s : DriverState) : Graph × List Nat × List Nat :=
  aggregate s.g (passLm γ s) (passRefine γ s).1

/-- The pass is the last one: aggregation did not shrink the graph, or
the iteration budget is exhausted. -/
def passStops (γ : Frac) (s : DriverState) : Prop :=
  (passAgg γ s).1.n = s.g.n ∨ s.budget = 1

/-- The state the next pass starts from. -/
def nextState (γ : Frac) (s : DriverState) : DriverState :=
  ⟨(passAgg γ s).1, (passAgg γ s).2.1, s.budget - 1, (passRefine γ s).2⟩

/-- The membership reported when the pass is the last one: the pass's
local-moving labels. -/
def lmOutput (γ : Frac) (s : DriverState) : List Nat :=
  (List.range s.g.n).map (labelOf (passLm γ s))

/-- Composing a deeper pass's output back onto this pass's vertices
through the aggregation map. -/
def composeOutput (γ : Frac) (s : DriverState) (out : List Nat) : List Nat :=
  (List.range s.g.n).map (fun v => labelOf out (labelOf (passAgg γ s).2.2 v))

/-- Modelled from the spec: §4.6 — the driver loop as a run relation:
`DriverRun γ s mem` holds when a driver execution from state `s`
reports membership `mem`. -/
inductive DriverRun (γ : Frac) : DriverState → List Nat → Prop
  | stop (s : DriverState) : s.budget = 0 → DriverRun γ s s.init
  | finish (s : DriverState) : s.budget ≠ 0 → passStops γ s →
      DriverRun γ s (lmOutput γ s)
  | step (s : DriverState) (out : List Nat) : s.budget ≠ 0 → ¬ passStops γ s →
      DriverRun γ (nextState γ s) out → DriverRun γ s (composeOutput γ s out)

/-- The driver-loop relation is deterministic: from one state, every two
runs report the same membership. -/
theorem DriverRun_det {γ : Frac} {s : DriverState} {o₁ o₂ : List Nat}
    (h₁ : DriverRun γ s o₁) (h₂ : DriverRun γ s o₂) : o₁ = o₂ := by
  induction h₁ generalizing o₂ with
  | stop s hb =>
    cases h₂ with
    | stop => rfl
    | finish _ hb' _ => exact absurd hb hb'
    | step _ _ hb' _ _ => exact absurd hb hb'
  | finish s hb hs =>
    cases h₂ with
    | stop _ hb0 => exact absurd hb0 hb
    | finish => rfl
    | step _ _ _ hns _ => exact absurd hs hns
  | step s out hb hns _ ih =>
    cases h₂ with
    | stop _ hb0 => exact absurd hb0 hb
    | finish _ _ hs => exact absurd hs hns
    | step _ out' _ _ hrec' => rw [ih hrec']

/-- One full program run that produces community assignments: the edge
conversion, the emptiness test, the core validation and driver relation,
and the final grouping, assembled exactly as `detect_communities` and
`main` assemble them. -/
inductive ProgramRun (inp : Input) (seed : Nat) : List Community → Prop
  | empty : convert_edges inp.edges = Except.ok [] → ProgramRun inp seed []
  | run (tuples : List (JVal × JVal × PyNum)) (mem : List Nat) :
      convert_edges inp.edges = Except.ok tuples → tuples ≠ [] →
      (tuples.map (fun e => e.2.2)).any (fun w => !(weightOk w)) = false →
      DriverRun inp.resolution
        ⟨builtGraph tuples, List.range (builtGraph tuples).n, inp.n_iterations, seed⟩
        mem →
      ProgramRun inp seed ((groupMembership mem (id_to_vertex tuples)).map
        (fun l => { level := 0, entity_ids := l }))

/-! ## The claims -/

/-- Claim C3: for the empty edge list as input, the program succeeds
(whatever the resolution, iteration budget or random state) and returns
`communities = []`, `vertex_count = 0`, `edge_count = 0` and
`community_count = 0`. -/
theorem claim_C3_empty_input (resolution : Frac) (n_iterations : Int) (seed : Nat) :
    main_run (Stdin.dict (Input.mk [] resolution n_iterations)) seed
      = Outcome.ok (RunResult.mk [] (Stats.mk 0 0 0)) := by
  rfl

/-- Claim C6: a 2-element `(source, target)` edge is processed with
weight 1.0, and a 3-element `(source, target, weight)` edge whose weight
is null also defaults to weight 1.0. -/
theorem claim_C6_default_weight (s t : JVal) :
    convertEdge [s, t] = Except.ok (s, t, PyNum.fin 1)
      ∧ convertEdge [s, t, JVal.null] = Except.ok (s, t, PyNum.fin 1) := by
  exact ⟨rfl, rfl⟩

/-- Claim C10: a 3-element edge with the exact numeric weight 0 is
silently given weight 1.0 by `float(weight or 1.0)` (0 is falsy in
Python), so it is processed identically to an explicit weight-1.0
edge. -/
theorem claim_C10_zero_weight (s t : JVal) :
    convertEdge [s, t, JVal.num 0] = Except.ok (s, t, PyNum.fin 1)
      ∧ convertEdge [s, t, JVal.num 0] = convertEdge [s, t, JVal.num 1] := by
  exact ⟨rfl, rfl⟩

/-- Claim C9: on the two-triangle input `[[0,1],[1,2],[2,0],[3,4],[4,5],
[5,3]]` (all weights defaulting to 1.0) at resolution 1.0 with the
default iteration budget, the program returns exactly 2 communities, one
holding exactly the identifiers 0, 1, 2 and the other exactly 3, 4, 5
(and the matching statistics). The core's ambient random state, which
the model makes explicit, is instantiated at 0; the refinement's random
choices cannot split a triangle, whose pairwise merges all have positive
gain. -/
theorem claim_C9_two_triangles :
    main_run (Stdin.dict (Input.mk
        [[JVal.num 0, JVal.num 1], [JVal.num 1, JVal.num 2],
         [JVal.num 2, JVal.num 0], [JVal.num 3, JVal.num 4],
         [JVal.num 4, JVal.num 5], [JVal.num 5, JVal.num 3]] 1 (-1))) 0
      = Outcome.ok (RunResult.mk
          [Community.mk 0 [JVal.num 0, JVal.num 1, JVal.num 2],
           Community.mk 0 [JVal.num 3, JVal.num 4, JVal.num 5]]
          (Stats.mk 6 6 2)) := by
  decide

/-- Claim C5: distinct vertex identifiers map one-to-one, in first-seen
order over the endpoint stream, onto dense indices `0..n-1`: the key
list is duplicate-free and is exactly the first-seen dedup of the
endpoints, indexing is a bijection between the identifiers and
`0..n-1`, and the reverse lookup used for output is exact in both
directions. -/
theorem claim_C5_vertex_mapping (edges : List (JVal × JVal × PyNum)) :
    (vertex_ids edges).Nodup
    ∧ vertex_ids edges = dedupKeepFirst (endpointStream edges)
    ∧ (∀ x, x ∈ vertex_ids edges ↔ x ∈ endpointStream edges)
    ∧ (∀ x, x ∈ vertex_ids edges →
        (vertex_ids edges).indexOf x < (vertex_ids edges).length
          ∧ id_to_vertex edges ((vertex_ids edges).indexOf x) = x)
    ∧ (∀ i, i < (vertex_ids edges).length →
        (vertex_ids edges).indexOf (id_to_vertex edges i) = i) := by
  refine ⟨vertex_ids_nodup edges, vertex_ids_eq_dedup edges,
    fun x => mem_vertex_ids, ?_, ?_⟩
  · intro x hx
    have hlt := List.indexOf_lt_length.mpr hx
    refine ⟨hlt, ?_⟩
    rw [id_to_vertex, List.getD_eq_getElem _ _ hlt]
    exact List.getElem_indexOf hlt
  · intro i hi
    rw [id_to_vertex, List.getD_eq_getElem _ _ hi]
    have h := List.get_indexOf (vertex_ids_nodup edges) ⟨i, hi⟩
    simpa using h

/-- Claim C8: every successful run returns community records whose
`level` field is always 0, and statistics reporting the distinct
endpoint count of the processed edge tuples, the input edge count, and
the community count. -/
theorem claim_C8_output_shape (inp : Input) (seed : Nat) (r : RunResult)
    (h : main_run (Stdin.dict inp) seed = Outcome.ok r) :
    (∀ c ∈ r.communities, c.level = 0)
    ∧ (∃ tuples, convert_edges inp.edges = Except.ok tuples
        ∧ r.stats.vertex_count = (endpointStream tuples).toFinset.card)
    ∧ r.stats.edge_count = inp.edges.length
    ∧ r.stats.community_count = r.communities.length := by
  simp only [main_run] at h
  cases hconv : convert_edges inp.edges with
  | error m => rw [hconv] at h; cases h
  | ok tuples =>
    rw [hconv] at h
    dsimp only [] at h
    cases hdet : detect_communities tuples inp.resolution inp.n_iterations seed with
    | error m => rw [hdet] at h; cases h
    | ok comms =>
      rw [hdet] at h
      dsimp only [] at h
      have hr := Outcome.ok.inj h
      refine ⟨?_, ⟨tuples, rfl, ?_⟩, ?_, ?_⟩
      · rw [← hr]
        intro c hc
        exact detect_communities_level hdet c (by simpa using hc)
      · rw [← hr]
        simpa using pyLenSet_eq_card (endpointStream tuples)
      · rw [← hr]
        simpa using convert_edges_length hconv
      · rw [← hr]

/-- Claim C2: for every non-empty input edge list whose detection
succeeds, every vertex identifier appearing as a source or target of
some input edge occurs exactly once across the entity lists of the
output communities: it is in exactly one community, and only once
there. -/
theorem claim_C2_completeness (edges : List (JVal × JVal × PyNum))
    (resolution : Frac) (n_iterations : Int) (seed : Nat)
    (comms : List Community) (hne : edges ≠ [])
    (h : detect_communities edges resolution n_iterations seed = Except.ok comms) :
    ∀ v ∈ endpointStream edges,
      ((comms.map (fun c => c.entity_ids)).flatten).count v = 1 := by
  intro v hv
  rcases detect_communities_ok h with ⟨he, _⟩ | ⟨_, mem, hfp, rfl⟩
  · exact absurd he hne
  · have hlen : mem.length = (vertex_ids edges).length := by
      have hl := find_partition_length hfp
      rwa [builtGraph_n] at hl
    have hv' : v ∈ vertex_ids edges := mem_vertex_ids.mpr hv
    have hmap : ((groupMembership mem (id_to_vertex edges)).map
          (fun l => Community.mk 0 l)).map (fun c => c.entity_ids)
        = groupMembership mem (id_to_vertex edges) := by
      rw [List.map_map]
      have hfun : ((fun c => c.entity_ids) ∘ fun l => Community.mk 0 l)
          = fun l : List JVal => l := rfl
      rw [hfun, List.map_id']
    rw [hmap]
    exact count_groupMembership_flatten mem (vertex_ids edges) hlen
      (vertex_ids_nodup edges) v hv'

/-- Claim C4: determinism as a two-run property: two program runs on the
same input edges, resolution, iteration budget and random seed produce
identical community assignments. -/
theorem claim_C4_determinism {inp : Input} {seed : Nat}
    {c₁ c₂ : List Community}
    (h₁ : ProgramRun inp seed c₁) (h₂ : ProgramRun inp seed c₂) : c₁ = c₂ := by
  cases h₁ with
  | empty hc1 =>
    cases h₂ with
    | empty _ => rfl
    | run tuples mem hc2 hne _ _ =>
      have ht : ([] : List (JVal × JVal × PyNum)) = tuples :=
        Except.ok.inj (hc1.symm.trans hc2)
      exact absurd ht.symm hne
  | run tuples mem hc1 hne1 hval1 hdr1 =>
    cases h₂ with
    | empty hc2 =>
      have ht : tuples = ([] : List (JVal × JVal × PyNum)) :=
        Except.ok.inj (hc1.symm.trans hc2)
      exact absurd ht hne1
    | run tuples' mem' hc2 hne2 hval2 hdr2 =>
      have ht : tuples = tuples' := Except.ok.inj (hc1.symm.trans hc2)
      subst ht
      have hm : mem = mem' := DriverRun_det hdr1 hdr2
      subst hm
      rfl

/-- A raw input edge of the kind the claimed InputError taxonomy covers:
its conversion raises (malformed shape or a weight `float()` rejects),
or it converts to a negative or non-finite weight. -/
def badEdge (e : List JVal) : Prop :=
  (∃ m, convertEdge e = Except.error m)
    ∨ (∃ s t w, convertEdge e = Except.ok (s, t, w) ∧ weightOk w = false)

/-- Claim C1, counterexample: on the input with the single edge
`["a", "b", -1]` — a negative weight — the stage that runs before any
graph is built (the edge conversion) succeeds with the negative weight
intact, so no InputError is reported before the graph is built; the
failure only surfaces during computation, through the generic caught
error envelope. -/
theorem claim_C1_counterexample :
    convert_edges [[JVal.str "a", JVal.str "b", JVal.num (-1)]]
        = Except.ok [(JVal.str "a", JVal.str "b", PyNum.fin (-1))]
      ∧ main_run (Stdin.dict (Input.mk [[JVal.str "a", JVal.str "b", JVal.num (-1)]]
            1 (-1))) 0
          = Outcome.errEnvelope "ValueError: weights must be non-negative and finite" := by
  exact ⟨rfl, rfl⟩

/-- Claim C1, amended: for every input containing an edge of malformed
shape, with a weight `float()` rejects, or with a negative or
non-finite weight, the program never returns a partition (the failure is
an uncaught exception during edge conversion for the first two kinds,
and an error raised during computation — after the graph is built — and
reported through the generic error envelope for negative or non-finite
weights). -/
theorem claim_C1_amended (inp : Input) (seed : Nat)
    (hbad : ∃ e ∈ inp.edges, badEdge e) :
    ∀ r, main_run (Stdin.dict inp) seed ≠ Outcome.ok r := by
  intro r hok
  simp only [main_run] at hok
  cases hconv : convert_edges inp.edges with
  | error m => rw [hconv] at hok; cases hok
  | ok tuples =>
    rw [hconv] at hok
    dsimp only [] at hok
    rcases hbad with ⟨e, he, hb⟩
    rcases hb with ⟨m, hm⟩ | ⟨s, t, w, hw, hneg⟩
    · rcases convert_edges_mem hconv he with ⟨t0, _, hok2⟩
      rw [hm] at hok2
      cases hok2
    · rcases convert_edges_mem hconv he with ⟨t2, ht2, hok2⟩
      rw [hw] at hok2
      have ht2w : t2 = (s, t, w) := (Except.ok.inj hok2).symm
      have hne : tuples ≠ [] := by
        intro h0
        rw [h0] at ht2
        cases ht2
      have hneg' : (tuples.map (fun e => e.2.2)).any
          (fun w => !(weightOk w)) = true := by
        rw [List.any_eq_true]
        refine ⟨w, List.mem_map.mpr ⟨t2, ht2, by rw [ht2w]⟩, by simp [hneg]⟩
      rw [detect_communities_neg hne hneg'] at hok
      cases hok

/-- Claim C7, counterexample: on the input with the single malformed
edge `["a"]` (one element), the program neither returns a partition nor
the single error indicator: the tuple unpacking raises outside the `try`
block and the process dies with an uncaught exception. -/
theorem claim_C7_counterexample :
    ¬ ((∃ r, main_run (Stdin.dict (Input.mk [[JVal.str "a"]] 1 (-1))) 0
          = Outcome.ok r)
      ∨ (∃ m, main_run (Stdin.dict (Input.mk [[JVal.str "a"]] 1 (-1))) 0
          = Outcome.errEnvelope m)) := by
  have h : main_run (Stdin.dict (Input.mk [[JVal.str "a"]] 1 (-1))) 0
      = Outcome.crash
          "ValueError: edge does not unpack into (source, target, weight)" := rfl
  rintro (⟨r, hr⟩ | ⟨m, hm⟩)
  · rw [h] at hr; cases hr
  · rw [h] at hm; cases hm

/-- Claim C7, amended: every run ends in exactly one of three ways — the
full partition, the single error indicator with a message, or an
uncaught exception — never more than one; and the uncaught-exception
ending occurs only when the decoded JSON document is not a dict (the
`.get` attribute error, raised outside the `try` block) or when some
input edge's conversion raises (malformed shape or a weight `float()`
rejects). -/
theorem claim_C7_amended (inp : Stdin) (seed : Nat) :
    ((∃ r, main_run inp seed = Outcome.ok r)
      ∨ (∃ m, main_run inp seed = Outcome.errEnvelope m)
      ∨ (∃ m, main_run inp seed = Outcome.crash m))
    ∧ (∀ m, main_run inp seed = Outcome.crash m →
        inp = Stdin.nonDict
          ∨ ∃ i, inp = Stdin.dict i ∧ ∃ e ∈ i.edges, ∃ m2,
              convertEdge e = Except.error m2) := by
  constructor
  · cases h : main_run inp seed with
    | ok r => exact Or.inl ⟨r, rfl⟩
    | errEnvelope m => exact Or.inr (Or.inl ⟨m, rfl⟩)
    | crash m => exact Or.inr (Or.inr ⟨m, rfl⟩)
  · intro m hm
    cases inp with
    | undecodable => simp only [main_run] at hm; cases hm
    | nonDict => exact Or.inl rfl
    | dict i =>
      refine Or.inr ⟨i, rfl, ?_⟩
      simp only [main_run] at hm
      cases hconv : convert_edges i.edges with
      | error m2 => exact convert_edges_error hconv
      | ok tuples =>
        rw [hconv] at hm
        dsimp only [] at hm
        cases hdet : detect_communities tuples i.resolution i.n_iterations seed with
        | error m3 => rw [hdet] at hm; cases hm
        | ok comms => rw [hdet] at hm; cases hm

/-! ## Witnesses: the claim theorems applied at concrete inputs -/

/-- Witness for C2 at the single edge `("a", "b", 1.0)`: the identifier
`"a"` occurs exactly once across the output communities. -/
theorem claim_C2_witness :
    ((([Community.mk 0 [JVal.str "a", JVal.str "b"]]).map
        (fun c => c.entity_ids)).flatten).count (JVal.str "a") = 1 :=
  claim_C2_completeness [(JVal.str "a", JVal.str "b", PyNum.fin 1)] 1 (-1) 0
    [Community.mk 0 [JVal.str "a", JVal.str "b"]]
    (by decide) (by decide) (JVal.str "a") (by decide)

/-- Witness for C4 at the empty input: two derivations of the program
run relation at the same input and seed have equal output. -/
theorem claim_C4_witness : ([] : List Community) = [] :=
  claim_C4_determinism
    ((ProgramRun.empty rfl) : ProgramRun (Input.mk [] 1 (-1)) 0 [])
    (ProgramRun.empty rfl)

/-- Witness for C5 at the single edge `("a", "b", 1.0)`: the mapping is
duplicate-free and reverse lookup is exact both ways. -/
theorem claim_C5_witness :
    (vertex_ids [(JVal.str "a", JVal.str "b", PyNum.fin 1)]).Nodup
    ∧ ((vertex_ids [(JVal.str "a", JVal.str "b", PyNum.fin 1)]).indexOf (JVal.str "b")
          < (vertex_ids [(JVal.str "a", JVal.str "b", PyNum.fin 1)]).length
        ∧ id_to_vertex [(JVal.str "a", JVal.str "b", PyNum.fin 1)]
            ((vertex_ids [(JVal.str "a", JVal.str "b", PyNum.fin 1)]).indexOf (JVal.str "b"))
          = JVal.str "b")
    ∧ (vertex_ids [(JVal.str "a", JVal.str "b", PyNum.fin 1)]).indexOf
        (id_to_vertex [(JVal.str "a", JVal.str "b", PyNum.fin 1)] 0) = 0 :=
  ⟨(claim_C5_vertex_mapping [(JVal.str "a", JVal.str "b", PyNum.fin 1)]).1,
    (claim_C5_vertex_mapping [(JVal.str "a", JVal.str "b", PyNum.fin 1)]).2.2.2.1
      (JVal.str "b") (by decide),
    (claim_C5_vertex_mapping [(JVal.str "a", JVal.str "b", PyNum.fin 1)]).2.2.2.2
      0 (by decide)⟩

/-- Witness for C8 at the single-edge input `[["a", "b"]]`. -/
theorem claim_C8_witness :
    (∀ c ∈ (RunResult.mk [Community.mk 0 [JVal.str "a", JVal.str "b"]]
        (Stats.mk 2 1 1)).communities, c.level = 0)
    ∧ (∃ tuples, convert_edges [[JVal.str "a", JVal.str "b"]] = Except.ok tuples
        ∧ (RunResult.mk [Community.mk 0 [JVal.str "a", JVal.str "b"]]
            (Stats.mk 2 1 1)).stats.vertex_count
          = (endpointStream tuples).toFinset.card)
    ∧ (RunResult.mk [Community.mk 0 [JVal.str "a", JVal.str "b"]]
        (Stats.mk 2 1 1)).stats.edge_count = [[JVal.str "a", JVal.str "b"]].length
    ∧ (RunResult.mk [Community.mk 0 [JVal.str "a", JVal.str "b"]]
        (Stats.mk 2 1 1)).stats.community_count
      = (RunResult.mk [Community.mk 0 [JVal.str "a", JVal.str "b"]]
          (Stats.mk 2 1 1)).communities.length :=
  claim_C8_output_shape (Input.mk [[JVal.str "a", JVal.str "b"]] 1 (-1)) 0
    (RunResult.mk [Community.mk 0 [JVal.str "a", JVal.str "b"]] (Stats.mk 2 1 1))
    (by decide)

/-- Witness for the amended C1 at the negative-weight input
`[["a", "b", -1]]`: no partition is returned. -/
theorem claim_C1_amended_witness :
    main_run (Stdin.dict (Input.mk [[JVal.str "a", JVal.str "b", JVal.num (-1)]]
        1 (-1))) 0
      ≠ Outcome.ok (RunResult.mk [] (Stats.mk 0 0 0)) :=
  claim_C1_amended (Input.mk [[JVal.str "a", JVal.str "b", JVal.num (-1)]] 1 (-1)) 0
    ⟨[JVal.str "a", JVal.str "b", JVal.num (-1)], by decide,
      Or.inr ⟨JVal.str "a", JVal.str "b", PyNum.fin (-1), rfl, by decide⟩⟩
    (RunResult.mk [] (Stats.mk 0 0 0))

/-- Witness for the amended C7 at the malformed-shape input `[["a"]]`:
the crash ending is reached only through a failing edge conversion, and
the failing edge is exhibited. -/
theorem claim_C7_amended_witness :
    Stdin.dict (Input.mk [[JVal.str "a"]] 1 (-1)) = Stdin.nonDict
      ∨ ∃ i, Stdin.dict (Input.mk [[JVal.str "a"]] 1 (-1)) = Stdin.dict i
          ∧ ∃ e ∈ i.edges, ∃ m2, convertEdge e = Except.error m2 :=
  (claim_C7_amended (Stdin.dict (Input.mk [[JVal.str "a"]] 1 (-1))) 0).2
    "ValueError: edge does not unpack into (source, target, weight)" rfl
